import Mathlib

/-!
Shallow embedding of `src/main.py`, a lexicon query engine over a French
word corpus, together with proofs of its specified properties.

Words are sequences of Unicode code points (`List Char`), matching
Python's code-point view of `str`; lexicons are finite sets of words
(`Finset Word`); Python's integer parameters are `ℤ`.  File input is
modelled by passing the list of lines of the file.  Python `-1` results
of `str.find` are modelled by `Option ℕ`.
-/

/-- A word: an immutable sequence of code points (Python `str`, indexed by
code point, one accented letter or hyphen counting as one character). -/
abbrev Word : Type := List Char

/-- Python `line.strip()`: remove leading and trailing whitespace. -/
def strip (l : Word) : Word :=
  ((l.dropWhile Char.isWhitespace).reverse.dropWhile Char.isWhitespace).reverse

/-- `read_data` (src/main.py:16-43): reads every line of the file and strips
surrounding whitespace from each, preserving order and duplicates.  The
opened file is modelled by its list of lines. -/
def read_data (lines : List Word) : List Word :=
  lines.map strip

/-- `ensemble_mots` (src/main.py:46-65): `set(read_data(filename))`. -/
def ensemble_mots (lines : List Word) : Finset Word :=
  (read_data lines).toFinset

/-- `mots_de_n_lettres` (src/main.py:68-93):
`\x7bmot for mot in mots if len(mot) == n\x7d`. -/
def mots_de_n_lettres (mots : Finset Word) (n : ℤ) : Finset Word :=
  mots.filter (fun mot => (mot.length : ℤ) = n)

/-- `mots_avec` (src/main.py:96-119): `\x7bmot for mot in mots if s in mot\x7d`;
Python `s in mot` on strings is contiguous-substring containment. -/
def mots_avec (mots : Finset Word) (s : Word) : Finset Word :=
  mots.filter (fun mot => s <:+: mot)

/-- `cherche1` (src/main.py:122-147): the words of exactly `n` letters that
begin with `start` and end with `stop`. -/
def cherche1 (mots : Finset Word) (start stop : Word) (n : ℤ) : Finset Word :=
  mots.filter (fun mot => (mot.length : ℤ) = n ∧ start <+: mot ∧ stop <:+ mot)

/-- `mot[i:i+len(milieu)] == milieu`: the string `milieu` occurs in `mot`
at start offset `i` (the occurrence spans offsets `i` to
`i + milieu.length`). -/
def OccAt (mot milieu : Word) (i : ℕ) : Prop :=
  i + milieu.length ≤ mot.length ∧ (mot.drop i).take milieu.length = milieu

instance (mot milieu : Word) (i : ℕ) : Decidable (OccAt mot milieu i) :=
  inferInstanceAs (Decidable (_ ∧ _))

/-- Python `mot.find(milieu, start)` (as used in src/main.py:198 and 203):
the smallest offset `i ≥ start` at which `milieu` occurs in `mot`, or
`none` (Python `-1`) when there is none.  Python scans candidate offsets
up to `len(mot)`; an empty `milieu` matches at any offset `≤ len(mot)`. -/
def trouve (mot milieu : Word) (start : ℕ) : Option ℕ :=
  if mot.length < start then none
  else if OccAt mot milieu start then some start
  else trouve mot milieu (start + 1)
termination_by mot.length + 1 - start
decreasing_by omega

/-- An offset returned by `trouve` is at least `start`, at most
`mot.length`, and is an occurrence of `milieu`.  (Needed below to justify
termination of the scanning loop, hence stated as a definition.) -/
def trouve_some (mot milieu : Word) (start idx : ℕ)
    (h : trouve mot milieu start = some idx) :
    start ≤ idx ∧ idx ≤ mot.length ∧ OccAt mot milieu idx :=
  if hl : mot.length < start then by
    rw [trouve] at h
    rw [if_pos hl] at h
    exact Option.noConfusion h
  else if ho : OccAt mot milieu start then by
    rw [trouve] at h
    simp only [if_neg hl, if_pos ho, Option.some.injEq] at h
    subst h
    exact ⟨Nat.le_refl _, by omega, ho⟩
  else by
    rw [trouve] at h
    simp only [if_neg hl, if_neg ho] at h
    have ih := trouve_some mot milieu (start + 1) idx h
    exact ⟨by omega, ih.2.1, ih.2.2⟩
termination_by mot.length + 1 - start
decreasing_by omega

/-- The interior-occurrence loop of `cherche2` (src/main.py:195-205):
starting the search at offset `start`, repeatedly find the next occurrence
of `milieu` in `mot`; return `true` as soon as a found occurrence has
`idx > 0` and `idx + len(milieu) < len(mot)`, re-searching from `idx + 1`
after each occurrence that touches a boundary, and `false` when the search
is exhausted. -/
def chercheMilieu (mot milieu : Word) (start : ℕ) : Bool :=
  match h : trouve mot milieu start with
  | none => false
  | some idx =>
    if 0 < idx ∧ idx + milieu.length < mot.length then true
    else chercheMilieu mot milieu (idx + 1)
termination_by mot.length + 1 - start
decreasing_by
  have hb := trouve_some mot milieu start idx h
  omega

/-- The per-word test of `cherche2` (src/main.py:184-208): length between
`nmin` and `nmax`, some element of `lstart` starting the word, some
element of `lstop` ending the word, and some element of `lmid` occurring
strictly inside the word. -/
def cherche2Pred (lstart lmid lstop : List Word) (nmin nmax : ℤ) (mot : Word) : Bool :=
  decide (nmin ≤ (mot.length : ℤ)) && decide ((mot.length : ℤ) ≤ nmax)
    && lstart.any (fun pref => List.isPrefixOf pref mot)
    && lstop.any (fun suf => List.isSuffixOf suf mot)
    && lmid.any (fun milieu => chercheMilieu mot milieu 0)

/-- The body of `cherche2` after its arguments have been normalised to
lists (src/main.py:182-212). -/
def cherche2Core (mots : Finset Word) (lstart lmid lstop : List Word)
    (nmin nmax : ℤ) : Finset Word :=
  mots.filter (fun mot => cherche2Pred lstart lmid lstop nmin nmax mot = true)

/-- A Python argument that is either a single string or a list of strings,
as accepted by `cherche2` for `lstart`, `lmid` and `lstop`. -/
inductive StrOuListe where
  | une (s : Word)
  | plusieurs (l : List Word)

/-- The `isinstance(x, str)` normalisation of src/main.py:175-180: a lone
string becomes the one-element list containing it. -/
def versListe : StrOuListe → List Word
  | .une s => [s]
  | .plusieurs l => l

/-- `cherche2` (src/main.py:150-212): normalise the three string-or-list
arguments, then filter the lexicon by `cherche2Pred`. -/
def cherche2 (mots : Finset Word) (lstart lmid lstop : StrOuListe)
    (nmin nmax : ℤ) : Finset Word :=
  cherche2Core mots (versListe lstart) (versListe lmid) (versListe lstop) nmin nmax

/-- No offset in `[start, idx)` is an occurrence when `trouve` returns
`idx`: Python `find` returns the leftmost occurrence at or after
`start`. -/
theorem trouve_minimal (mot milieu : Word) (start idx : ℕ)
    (h : trouve mot milieu start = some idx) :
    ∀ j, start ≤ j → j < idx → ¬ OccAt mot milieu j := by
  intro j hsj hji
  by_cases hl : mot.length < start
  · rw [trouve, if_pos hl] at h
    exact Option.noConfusion h
  · by_cases ho : OccAt mot milieu start
    · rw [trouve, if_neg hl, if_pos ho] at h
      have heq : start = idx := Option.some.inj h
      intro _
      omega
    · rw [trouve, if_neg hl, if_neg ho] at h
      rcases Nat.eq_or_lt_of_le hsj with rfl | hlt
      · exact ho
      · exact trouve_minimal mot milieu (start + 1) idx h j hlt hji
termination_by mot.length + 1 - start
decreasing_by omega

/-- When `trouve` returns `none` (Python `-1`), no offset at or after
`start` is an occurrence. -/
theorem trouve_none (mot milieu : Word) (start : ℕ)
    (h : trouve mot milieu start = none) :
    ∀ j, start ≤ j → ¬ OccAt mot milieu j := by
  intro j hsj
  by_cases hl : mot.length < start
  · intro hocc
    have := hocc.1
    omega
  · by_cases ho : OccAt mot milieu start
    · rw [trouve, if_neg hl, if_pos ho] at h
      exact Option.noConfusion h
    · rw [trouve, if_neg hl, if_neg ho] at h
      rcases Nat.eq_or_lt_of_le hsj with rfl | hlt
      · exact ho
      · exact trouve_none mot milieu (start + 1) h j hlt
termination_by mot.length + 1 - start
decreasing_by omega

/-- Correctness of the scanning loop: `chercheMilieu mot milieu start`
succeeds exactly when some occurrence of `milieu` at an offset `≥ start`
is strictly interior (`0 < i` and `i + milieu.length < mot.length`). -/
theorem chercheMilieu_iff (mot milieu : Word) (start : ℕ) :
    chercheMilieu mot milieu start = true ↔
    ∃ i, start ≤ i ∧ 0 < i ∧ i + milieu.length < mot.length ∧ OccAt mot milieu i := by
  rw [chercheMilieu]
  split
  · rename_i h
    simp only [Bool.false_eq_true, false_iff]
    rintro ⟨i, hsi, hpos, hint, hocc⟩
    exact trouve_none mot milieu start h i hsi hocc
  · rename_i idx h
    obtain ⟨hb1, hb2, hocc0⟩ := trouve_some mot milieu start idx h
    split
    · rename_i hc
      exact iff_of_true rfl ⟨idx, hb1, hc.1, hc.2, hocc0⟩
    · rename_i hc
      rw [chercheMilieu_iff mot milieu (idx + 1)]
      constructor
      · rintro ⟨i, hsi, hpos, hint, hocc⟩
        exact ⟨i, by omega, hpos, hint, hocc⟩
      · rintro ⟨i, hsi, hpos, hint, hocc⟩
        refine ⟨i, ?_, hpos, hint, hocc⟩
        by_contra hcon
        rcases Nat.lt_or_ge i idx with hlt | hge
        · exact trouve_minimal mot milieu start idx h i hsi hlt hocc
        · have : i = idx := by omega
          subst this
          exact hc ⟨hpos, hint⟩
termination_by mot.length + 1 - start
decreasing_by omega

/-- C1: `cherche2`, given lists for the three string collections, returns
exactly the words `w` of the lexicon with `nmin ≤ len(w) ≤ nmax` that
start with some element of `lstart`, end with some element of `lstop`,
and contain some element of `lmid` at an occurrence whose start offset is
strictly positive and whose end offset is strictly below `len(w)`. -/
theorem cherche2_spec (mots : Finset Word) (lstart lmid lstop : List Word)
    (nmin nmax : ℤ) (mot : Word) :
    mot ∈ cherche2 mots (.plusieurs lstart) (.plusieurs lmid) (.plusieurs lstop) nmin nmax ↔
      mot ∈ mots ∧ nmin ≤ (mot.length : ℤ) ∧ (mot.length : ℤ) ≤ nmax ∧
      (∃ p ∈ lstart, p <+: mot) ∧ (∃ s ∈ lstop, s <:+ mot) ∧
      (∃ m ∈ lmid, ∃ i, 0 < i ∧ i + m.length < mot.length ∧ OccAt mot m i) := by
  simp only [cherche2, versListe, cherche2Core, Finset.mem_filter, cherche2Pred,
    Bool.and_eq_true, decide_eq_true_eq, List.any_eq_true,
    List.isPrefixOf_iff_prefix, List.isSuffixOf_iff_suffix, chercheMilieu_iff,
    Nat.zero_le, true_and]
  tauto

/-- C2: when the interior collection contains the empty string, the
interior condition of `cherche2` holds for a word exactly when the word
has at least two characters: the empty string matches at every internal
offset but never strictly inside a word of length `0` or `1`. -/
theorem cherche2_empty_interior (mot : Word) (lmid : List Word) (h : [] ∈ lmid) :
    lmid.any (fun m => chercheMilieu mot m 0) = true ↔ 2 ≤ mot.length := by
  constructor
  · intro ha
    rcases List.any_eq_true.mp ha with ⟨m, _, hcm⟩
    rcases (chercheMilieu_iff mot m 0).mp hcm with ⟨i, _, hpos, hint, _⟩
    omega
  · intro hlen
    refine List.any_eq_true.mpr ⟨[], h, ?_⟩
    refine (chercheMilieu_iff mot [] 0).mpr
      ⟨1, Nat.zero_le 1, Nat.one_pos, ?_, ?_, ?_⟩
    · simp only [List.length_nil]
      omega
    · simp only [List.length_nil]
      omega
    · simp

theorem cherche2_empty_interior_witness :
    ([] : Word) ∈ ([[]] : List Word) ∧
      ((([[]] : List Word).any (fun m => chercheMilieu (['a', 'b'] : Word) m 0) = true) ↔
        2 ≤ (['a', 'b'] : Word).length) :=
  ⟨by decide, cherche2_empty_interior ['a', 'b'] [[]] (by decide)⟩

/-- C3: the scan considers every occurrence of a nonempty interior string:
if the string occurs at offset `0` (touching the left boundary) but also
at some later strictly interior occurrence, the word still passes the
interior check — a boundary-touching first occurrence does not disqualify
it. -/
theorem chercheMilieu_later_occurrence (mot milieu : Word) (hne : milieu ≠ [])
    (hb : OccAt mot milieu 0)
    (hi : ∃ i, 0 < i ∧ i + milieu.length < mot.length ∧ OccAt mot milieu i) :
    chercheMilieu mot milieu 0 = true := by
  rcases hi with ⟨i, h1, h2, h3⟩
  exact (chercheMilieu_iff mot milieu 0).mpr ⟨i, Nat.zero_le i, h1, h2, h3⟩

theorem chercheMilieu_later_occurrence_witness :
    chercheMilieu (['a', 'a', 'b'] : Word) ['a'] 0 = true :=
  chercheMilieu_later_occurrence ['a', 'a', 'b'] ['a'] (by decide) (by decide)
    ⟨1, by decide, by decide, by decide⟩

/-- C4 counterexample: with prefix and suffix both `"ab"` and `n = 2`, the
windows overlap, `len(p) + len(s) = 4 > 2 = n`, yet `cherche1` on the
lexicon `{"ab"}` is nonempty — the claim that `len(p) + len(s) > n`
forces an empty result is false. -/
theorem cherche1_overlap_cex :
    (2 : ℤ) < ((['a', 'b'] : Word).length : ℤ) + ((['a', 'b'] : Word).length : ℤ) ∧
    cherche1 ({['a', 'b']} : Finset Word) ['a', 'b'] ['a', 'b'] 2 ≠ ∅ := by
  constructor
  · decide
  · decide

/-- C4 (amended): `cherche1` returns exactly the words of length `n` that
start with `p` and end with `s`; the prefix and suffix windows may
overlap, and whenever `len(p) > n` or `len(s) > n` the result is the
empty set, not an error. -/
theorem cherche1_spec (mots : Finset Word) (p s : Word) (n : ℤ) :
    (∀ w, w ∈ cherche1 mots p s n ↔
      w ∈ mots ∧ (w.length : ℤ) = n ∧ p <+: w ∧ s <:+ w) ∧
    ((n < (p.length : ℤ) ∨ n < (s.length : ℤ)) → cherche1 mots p s n = ∅) := by
  constructor
  · intro w
    simp [cherche1]
  · intro hbig
    rw [cherche1, Finset.filter_eq_empty_iff]
    intro w _
    rintro ⟨hlen, hp, hs⟩
    rcases hbig with hb | hb
    · have := hp.length_le
      omega
    · have := hs.length_le
      omega

theorem cherche1_spec_witness :
    (2 : ℤ) < ((['a', 'b', 'c'] : Word).length : ℤ) ∧
    cherche1 ({['a', 'b']} : Finset Word) ['a', 'b', 'c'] [] 2 = ∅ :=
  ⟨by decide, (cherche1_spec {['a', 'b']} ['a', 'b', 'c'] [] 2).2 (Or.inl (by decide))⟩

/-- C5: `mots_de_n_lettres` returns exactly the subset of the lexicon
whose members have code-point count `n`; results for distinct lengths are
disjoint, and the union over all lengths occurring in the lexicon gives
back the lexicon. -/
theorem mots_de_n_lettres_spec (L : Finset Word) (n : ℤ) :
    (∀ w, w ∈ mots_de_n_lettres L n ↔ w ∈ L ∧ (w.length : ℤ) = n) ∧
    (∀ m, m ≠ n → Disjoint (mots_de_n_lettres L n) (mots_de_n_lettres L m)) ∧
    (L.image (fun w => (w.length : ℤ))).biUnion (fun k => mots_de_n_lettres L k) = L := by
  refine ⟨fun w => by simp [mots_de_n_lettres], fun m hmn => ?_, ?_⟩
  · rw [Finset.disjoint_left]
    intro w hwn hwm
    rw [mots_de_n_lettres, Finset.mem_filter] at hwn hwm
    exact hmn (hwm.2.symm.trans hwn.2)
  · ext w
    simp only [Finset.mem_biUnion, Finset.mem_image, mots_de_n_lettres, Finset.mem_filter]
    constructor
    · rintro ⟨k, -, hw, -⟩
      exact hw
    · intro hw
      exact ⟨(w.length : ℤ), ⟨w, hw, rfl⟩, hw, rfl⟩

theorem mots_de_n_lettres_spec_witness :
    (1 : ℤ) ≠ 2 ∧
      Disjoint (mots_de_n_lettres ({['a'], ['a', 'b']} : Finset Word) 2)
        (mots_de_n_lettres ({['a'], ['a', 'b']} : Finset Word) 1) :=
  ⟨by decide, (mots_de_n_lettres_spec {['a'], ['a', 'b']} 2).2.1 1 (by decide)⟩

/-- C6 counterexample: on a lexicon containing the empty word,
`mots_de_n_lettres` with `n = 0` returns a nonempty set, so "zero `n`
returns the empty set" fails as stated. -/
theorem mots_de_n_lettres_zero_cex :
    mots_de_n_lettres ({([] : Word)} : Finset Word) 0 ≠ ∅ := by
  decide

/-- C6 (amended): the query functions are total and degrade gracefully:
`mots_de_n_lettres` with negative `n` returns the empty set, with `n = 0`
it returns the empty set whenever the lexicon does not contain the empty
word, and `cherche2` with `nmin > nmax` returns the empty set. -/
theorem total_degrade_spec (L mots : Finset Word) (n : ℤ) (a b c : StrOuListe)
    (nmin nmax : ℤ) :
    (n < 0 → mots_de_n_lettres L n = ∅) ∧
    (([] : Word) ∉ L → mots_de_n_lettres L 0 = ∅) ∧
    (nmax < nmin → cherche2 mots a b c nmin nmax = ∅) := by
  refine ⟨fun hn => ?_, fun hnil => ?_, fun hrange => ?_⟩
  · rw [mots_de_n_lettres, Finset.filter_eq_empty_iff]
    intro w _ he
    omega
  · rw [mots_de_n_lettres, Finset.filter_eq_empty_iff]
    intro w hw he
    have h0 : w.length = 0 := by omega
    have hw0 : w = [] := List.length_eq_zero.mp h0
    exact hnil (hw0 ▸ hw)
  · rw [cherche2, cherche2Core, Finset.filter_eq_empty_iff]
    intro w _
    simp only [cherche2Pred, Bool.and_eq_true, decide_eq_true_eq]
    rintro ⟨⟨⟨⟨h1, h2⟩, -⟩, -⟩, -⟩
    omega

theorem total_degrade_spec_witness :
    mots_de_n_lettres ({['a']} : Finset Word) (-1) = ∅ ∧
    mots_de_n_lettres ({['a']} : Finset Word) 0 = ∅ ∧
    cherche2 ({['a']} : Finset Word) (.une ['a']) (.une ['a']) (.une ['a']) 3 2 = ∅ :=
  ⟨(total_degrade_spec {['a']} {['a']} (-1) (.une ['a']) (.une ['a']) (.une ['a']) 3 2).1
      (by decide),
   (total_degrade_spec {['a']} {['a']} 0 (.une ['a']) (.une ['a']) (.une ['a']) 3 2).2.1
      (by decide),
   (total_degrade_spec {['a']} {['a']} 0 (.une ['a']) (.une ['a']) (.une ['a']) 3 2).2.2
      (by decide)⟩

/-- C7: `mots_avec` returns exactly the words in which the fragment
occurs contiguously somewhere (exact code-point matching), and with the
empty fragment it returns the whole lexicon. -/
theorem mots_avec_spec (L : Finset Word) (s : Word) :
    (∀ w, w ∈ mots_avec L s ↔ w ∈ L ∧ s <:+: w) ∧ mots_avec L [] = L := by
  refine ⟨fun w => by simp [mots_avec], ?_⟩
  ext w
  simp [mots_avec, List.nil_infix]

/-- C8: passing a lone string to `cherche2` for any of the three
string-collection arguments is the same as passing the one-element list
containing it, jointly and for each argument independently. -/
theorem cherche2_une_plusieurs (mots : Finset Word) (a b c : Word)
    (B C : StrOuListe) (nmin nmax : ℤ) :
    cherche2 mots (.une a) (.une b) (.une c) nmin nmax
        = cherche2 mots (.plusieurs [a]) (.plusieurs [b]) (.plusieurs [c]) nmin nmax ∧
    cherche2 mots (.une a) B C nmin nmax
        = cherche2 mots (.plusieurs [a]) B C nmin nmax ∧
    cherche2 mots B (.une b) C nmin nmax
        = cherche2 mots B (.plusieurs [b]) C nmin nmax ∧
    cherche2 mots B C (.une c) nmin nmax
        = cherche2 mots B C (.plusieurs [c]) nmin nmax :=
  ⟨rfl, rfl, rfl, rfl⟩

/-- C9: a word belongs to `ensemble_mots` exactly when it occurs somewhere
in the list produced by `read_data` on the same source: `ensemble_mots`
is the deduplication of `read_data`. -/
theorem ensemble_mots_spec (lines : List Word) (w : Word) :
    w ∈ ensemble_mots lines ↔ w ∈ read_data lines := by
  simp [ensemble_mots]

/-- C10: if any one of the three collections given to `cherche2` is the
empty list, the result is the empty set. -/
theorem cherche2_empty_collection (mots : Finset Word) (y z : StrOuListe)
    (nmin nmax : ℤ) :
    cherche2 mots (.plusieurs []) y z nmin nmax = ∅ ∧
    cherche2 mots y (.plusieurs []) z nmin nmax = ∅ ∧
    cherche2 mots y z (.plusieurs []) nmin nmax = ∅ := by
  refine ⟨?_, ?_, ?_⟩ <;>
  · rw [cherche2, cherche2Core, Finset.filter_eq_empty_iff]
    intro w _
    simp [cherche2Pred, versListe]
